import Mathlib

/-!
Shallow embedding of the seller-apis repository (src/seller.py and
src/market.py) together with proofs about its reconciliation, batching,
price-normalization, pagination and cleanup logic.

Conventions of the embedding:
* a Python `dict` row of the supplier feed is a `FeedRecord` whose fields hold
  the already-stringified values that the code reads (`str(watch.get("Код"))`,
  `str(watch.get("Количество"))`, `watch.get("Цена")`);
* the mutable `offer_ids` list is threaded explicitly through each loop;
* code that can raise an uncaught Python exception is modelled with `Option`
  (`none` = the exception propagates out of the function);
* Python `int(...)` on a string is modelled by `pyInt` (optional sign
  followed by at least one decimal digit; `none` = `ValueError`);
* Python `list.remove` (first occurrence) is `List.erase` (call sites only
  remove elements whose membership was just checked, so the missing-element
  `ValueError` of `list.remove` cannot occur).
-/

set_option linter.unusedVariables false

namespace SellerApis

/-- One row of the supplier feed (spec §3 FeedRecord): the three fields the
code reads, already stringified. -/
structure FeedRecord where
  code : String
  quantity : String
  price : String
deriving DecidableEq, Repr

/-- Value of a run of characters as a decimal numeral: `none` as soon as a
non-digit appears (and on the empty run, via `pyInt` requiring a digit). -/
def digitsToNat : List Char → Nat → Option Nat
  | [], acc => some acc
  | c :: cs, acc =>
    if c.isDigit then digitsToNat cs (acc * 10 + (c.toNat - '0'.toNat)) else none

/-- Python `int(...)` applied to a string: an optional sign followed by at
least one decimal digit; anything else raises `ValueError`, modelled as
`none`. -/
def pyInt (s : String) : Option Int :=
  match s.toList with
  | [] => none
  | '-' :: [] => none
  | '-' :: c :: cs => (digitsToNat (c :: cs) 0).map (fun n => -(n : Int))
  | '+' :: [] => none
  | '+' :: c :: cs => (digitsToNat (c :: cs) 0).map (fun n => (n : Int))
  | c :: cs => (digitsToNat (c :: cs) 0).map (fun n => (n : Int))

/-- Python `str.split(".")` restricted to what `price_conversion` needs:
splits a character list at every `'.'`, keeping empty pieces, never returning
an empty list of pieces. -/
def splitOnDot : List Char → List (List Char)
  | [] => [[]]
  | c :: cs =>
    if c = '.' then [] :: splitOnDot cs
    else
      match splitOnDot cs with
      | [] => [[c]]
      | h :: t => (c :: h) :: t

/-- src/seller.py lines 248-264: `re.sub("[^0-9]", "", price.split(".")[0])`.
The regex deletion of every non-digit is `List.filter Char.isDigit`; the
`[0]` index is the head of the split (which is never empty). -/
def price_conversion (price : String) : String :=
  String.mk (((splitOnDot price.toList).headD []).filter Char.isDigit)

/-- The stock-quantization branch inlined identically in both `create_stocks`
bodies (src/seller.py lines 190-196, src/market.py lines 176-182):
`">10"` maps to 100, `"1"` maps to 0, anything else goes through `int(...)`,
whose `ValueError` on a non-numeric string is `none`. -/
def stockQuantize (count : String) : Option Int :=
  if count = ">10" then some 100
  else if count = "1" then some 0
  else pyInt count

namespace Seller

/-- Element of the list returned by seller.create_stocks:
`{"offer_id": ..., "stock": ...}` (src/seller.py line 197). -/
structure StockUpdate where
  offer_id : String
  stock : Int
deriving DecidableEq, Repr

/-- Element of the list returned by seller.create_prices
(src/seller.py lines 237-243). -/
structure PriceUpdate where
  auto_action_enabled : String
  currency_code : String
  offer_id : String
  old_price : String
  price : String
deriving DecidableEq, Repr

/-- First loop of seller.create_stocks (src/seller.py lines 187-198): walk the
feed, and for each record whose code is in `offer_ids` append a stock entry
and remove the code from `offer_ids`; `none` models the uncaught `ValueError`
of `int(...)` on a non-numeric quantity. Returns the accumulated matched
entries together with the final state of `offer_ids`. -/
def createStocksLoop : List FeedRecord → List String → List StockUpdate →
    Option (List StockUpdate × List String)
  | [], offer_ids, stocks => some (stocks, offer_ids)
  | watch :: rest, offer_ids, stocks =>
    if watch.code ∈ offer_ids then
      match stockQuantize watch.quantity with
      | none => none
      | some stock =>
          createStocksLoop rest (offer_ids.erase watch.code)
            (stocks ++ [{ offer_id := watch.code, stock := stock }])
    else createStocksLoop rest offer_ids stocks

/-- src/seller.py lines 168-202. The second loop (lines 200-201) appends a
zero-stock entry for every id still in `offer_ids`. The result carries both
the stocks list and the final (mutated) `offer_ids`. -/
def create_stocks (watch_remnants : List FeedRecord) (offer_ids : List String) :
    Option (List StockUpdate × List String) :=
  (createStocksLoop watch_remnants offer_ids []).map
    (fun p => (p.1 ++ p.2.map (fun offer_id => { offer_id := offer_id, stock := 0 }), p.2))

/-- Loop of seller.create_prices (src/seller.py lines 234-244). The
`offer_ids` list is threaded through unchanged — the body only tests
membership, it never mutates the list — and returned so that the frame
property is visible in the result. -/
def createPricesLoop : List FeedRecord → List String → List PriceUpdate →
    (List PriceUpdate × List String)
  | [], offer_ids, prices => (prices, offer_ids)
  | watch :: rest, offer_ids, prices =>
    if watch.code ∈ offer_ids then
      createPricesLoop rest offer_ids
        (prices ++ [{ auto_action_enabled := "UNKNOWN", currency_code := "RUB",
                      offer_id := watch.code, old_price := "0",
                      price := price_conversion watch.price }])
    else createPricesLoop rest offer_ids prices

/-- src/seller.py lines 205-245. -/
def create_prices (watch_remnants : List FeedRecord) (offer_ids : List String) :
    List PriceUpdate :=
  (createPricesLoop watch_remnants offer_ids []).1

end Seller

namespace Market

/-- Inner element of a Yandex stock entry (src/market.py lines 188-192). -/
structure StockItem where
  count : Int
  type : String
  updatedAt : String
deriving DecidableEq, Repr

/-- Element of the list returned by market.create_stocks
(src/market.py lines 184-195): `{sku, warehouseId, items}`. -/
structure StockUpdate where
  sku : String
  warehouseId : String
  items : List StockItem
deriving DecidableEq, Repr

/-- Nested price object of a Yandex price entry (src/market.py lines 244-249). -/
structure PriceValue where
  value : Int
  currencyId : String
deriving DecidableEq, Repr

/-- Element of the list returned by market.create_prices
(src/market.py lines 241-252). -/
structure PriceUpdate where
  id : String
  price : PriceValue
deriving DecidableEq, Repr

/-- First loop of market.create_stocks (src/market.py lines 174-196);
identical control flow to the seller loop, but with the nested Yandex payload
shape. `warehouse_id` is the function argument, `date` the per-run UTC
timestamp string computed on line 173 (an external input of the run). -/
def createStocksLoop (warehouse_id date : String) :
    List FeedRecord → List String → List StockUpdate →
    Option (List StockUpdate × List String)
  | [], offer_ids, stocks => some (stocks, offer_ids)
  | watch :: rest, offer_ids, stocks =>
    if watch.code ∈ offer_ids then
      match stockQuantize watch.quantity with
      | none => none
      | some stock =>
          createStocksLoop warehouse_id date rest (offer_ids.erase watch.code)
            (stocks ++ [{ sku := watch.code, warehouseId := warehouse_id,
                          items := [{ count := stock, type := "FIT", updatedAt := date }] }])
    else createStocksLoop warehouse_id date rest offer_ids stocks

/-- src/market.py lines 148-212. The second loop (lines 198-211) appends a
zero-count entry for every id still in `offer_ids`. -/
def create_stocks (watch_remnants : List FeedRecord) (offer_ids : List String)
    (warehouse_id date : String) : Option (List StockUpdate × List String) :=
  (createStocksLoop warehouse_id date watch_remnants offer_ids []).map
    (fun p => (p.1 ++ p.2.map (fun offer_id =>
        { sku := offer_id, warehouseId := warehouse_id,
          items := [{ count := 0, type := "FIT", updatedAt := date }] }), p.2))

/-- Loop of market.create_prices (src/market.py lines 238-253). The optional
first component is `none` when `int(price_conversion(...))` raises; the second
component is the state of `offer_ids` when the loop stops (the body never
mutates the list, including on the raising path, so it is threaded through
unchanged). -/
def createPricesLoop : List FeedRecord → List String → List PriceUpdate →
    (Option (List PriceUpdate) × List String)
  | [], offer_ids, prices => (some prices, offer_ids)
  | watch :: rest, offer_ids, prices =>
    if watch.code ∈ offer_ids then
      match pyInt (price_conversion watch.price) with
      | none => (none, offer_ids)
      | some v =>
          createPricesLoop rest offer_ids
            (prices ++ [{ id := watch.code, price := { value := v, currencyId := "RUR" } }])
    else createPricesLoop rest offer_ids prices

/-- src/market.py lines 215-254. -/
def create_prices (watch_remnants : List FeedRecord) (offer_ids : List String) :
    Option (List PriceUpdate) :=
  (createPricesLoop watch_remnants offer_ids []).1

end Market

/-- Number of stock updates that a given offer identifier receives. -/
def countStock (stocks : List Seller.StockUpdate) (i : String) : Nat :=
  (stocks.filter (fun u => u.offer_id == i)).length

/-- Number of Ozon price updates that a given offer identifier receives. -/
def countSellerPrice (prices : List Seller.PriceUpdate) (i : String) : Nat :=
  (prices.filter (fun p => p.offer_id == i)).length

/-- Number of Yandex price updates that a given offer identifier receives. -/
def countMarketPrice (prices : List Market.PriceUpdate) (i : String) : Nat :=
  (prices.filter (fun p => p.id == i)).length

/-! ### Batch splitter (src/seller.py lines 267-278) -/

/-- Python `range(0, stop, step)`: `none` models the `ValueError` that
`range` raises on a zero step. For a nonzero step the documented semantics of
`range` is the arithmetic sequence `step * i` for `0 ≤ i < max(0,
⌈(stop - 0) / step⌉)`; for a negative step the element count is
`⌈(0 - stop) / (-step)⌉` clamped at zero (so it is empty whenever
`stop ≥ 0`). `Int.toNat` performs the clamping. -/
def pyRange (stop step : Int) : Option (List Int) :=
  if step = 0 then none
  else if 0 < step then
    some ((List.range ((stop.toNat + step.toNat - 1) / step.toNat)).map
      (fun i : Nat => step * (i : Int)))
  else
    some ((List.range (((-stop).toNat + (-step).toNat - 1) / (-step).toNat)).map
      (fun i : Nat => step * (i : Int)))

/-- src/seller.py lines 267-278: `for i in range(0, len(lst), n): yield
lst[i : i + n]`, collected into a list. The slice `lst[i : i + n]` is only
ever taken at an index `i ≥ 0` produced by `range` with a positive `n` (for a
negative `n` the range is empty), where it equals `(lst.drop i).take n`. -/
def divide {α : Type} (lst : List α) (n : Int) : Option (List (List α)) :=
  (pyRange (lst.length : Int) n).map
    (fun idxs => idxs.map (fun i => (lst.drop i.toNat).take n.toNat))

/-- Structural-recursion view of the chunking realized by `divide` for a
positive chunk size: head chunk of `n` elements, then the chunks of the rest. -/
def chunksOf {α : Type} : Nat → List α → List (List α)
  | _, [] => []
  | 0, _ :: _ => []
  | n + 1, x :: xs => (x :: xs).take (n + 1) :: chunksOf (n + 1) ((x :: xs).drop (n + 1))
termination_by n l => l.length
decreasing_by
  simp only [List.drop_succ_cons, List.length_drop, List.length_cons]
  omega

/-! ### Pagination loops (src/seller.py lines 51-78, src/market.py lines 117-145) -/

/-- One product dict of an Ozon listing page, as read by the loop. -/
structure OzonProduct where
  offer_id : String
deriving DecidableEq, Repr

/-- One Ozon listing response (`result` object of src/seller.py line 48):
the fields read by get_offer_ids. -/
structure OzonPage where
  items : List OzonProduct
  total : Nat
  last_id : String
deriving Repr

/-- The `while True` loop of seller.get_offer_ids (src/seller.py lines
66-74). `pages k` is the k-th response the server returns; the loop breaks
when the reported `total` equals the length of the accumulated
`product_list`. `fuel` bounds the number of iterations; `none` means the
loop has not terminated within `fuel` requests. -/
def ozonCollect (pages : Nat → OzonPage) :
    Nat → Nat → List OzonProduct → Option (List OzonProduct)
  | 0, _, _ => none
  | fuel + 1, k, product_list =>
    let some_prod := pages k
    let product_list2 := product_list ++ some_prod.items
    if some_prod.total = product_list2.length then some product_list2
    else ozonCollect pages fuel (k + 1) product_list2

/-- Length of the accumulated `product_list` after `k` Ozon responses. -/
def ozonAccLen (pages : Nat → OzonPage) : Nat → Nat
  | 0 => 0
  | k + 1 => ozonAccLen pages k + ((pages k).items).length

/-- The Ozon termination signal at response `k`: the reported total equals
the number of items accumulated through response `k`. -/
def ozonSignal (pages : Nat → OzonPage) (k : Nat) : Prop :=
  (pages k).total = ozonAccLen pages (k + 1)

namespace Seller

/-- src/seller.py lines 51-78: run the pagination loop, then extract
`offer_id` from every accumulated product. -/
def get_offer_ids (pages : Nat → OzonPage) (fuel : Nat) : Option (List String) :=
  (ozonCollect pages fuel 0 []).map (fun ps => ps.map (fun p => p.offer_id))

end Seller

/-- One `offerMappingEntries` element of a Yandex listing page, as read by
the loop (src/market.py line 144 reads `product.get("offer").get("shopSku")`). -/
structure YandexEntry where
  shopSku : String
deriving DecidableEq, Repr

/-- One Yandex listing response: the fields read by market.get_offer_ids.
`nextPageToken` is `none` when the key is absent from `paging`. -/
structure YandexPage where
  offerMappingEntries : List YandexEntry
  nextPageToken : Option String
deriving Repr

/-- Python falsiness of the continuation token (`if not page: break`,
src/market.py line 140): an absent token (`None`) and the empty string are
both falsy. -/
def pyFalsy : Option String → Bool
  | none => true
  | some s => s == ""

/-- The `while True` loop of market.get_offer_ids (src/market.py lines
134-141): accumulate entries, break when the continuation token is falsy. -/
def yandexCollect (pages : Nat → YandexPage) :
    Nat → Nat → List YandexEntry → Option (List YandexEntry)
  | 0, _, _ => none
  | fuel + 1, k, product_list =>
    let some_prod := pages k
    let product_list2 := product_list ++ some_prod.offerMappingEntries
    if pyFalsy some_prod.nextPageToken then some product_list2
    else yandexCollect pages fuel (k + 1) product_list2

/-- The Yandex termination signal at response `k`: the continuation token of
response `k` is empty or absent. -/
def yandexSignal (pages : Nat → YandexPage) (k : Nat) : Prop :=
  pyFalsy (pages k).nextPageToken = true

namespace Market

/-- src/market.py lines 117-145: run the pagination loop, then extract
`shopSku` from every accumulated entry. -/
def get_offer_ids (pages : Nat → YandexPage) (fuel : Nat) : Option (List String) :=
  (yandexCollect pages fuel 0 []).map (fun es => es.map (fun e => e.shopSku))

end Market

/-! ### download_stock scratch-file handling (src/seller.py lines 138-165) -/

/-- State of the working directory: whether the extracted `ostatki.xls`
scratch file is present. -/
structure FsState where
  ostatkiExists : Bool
deriving DecidableEq, Repr

/-- Model of `os.remove("./ostatki.xls")` (src/seller.py line 164). -/
def osRemoveOstatki (s : FsState) : FsState :=
  { s with ostatkiExists := false }

/-- Shallow embedding of the tail of download_stock (src/seller.py lines
154-165). `archive.extractall(".")` puts `ostatki.xls` on disk;
`parseOutcome` stands for the outcome of `pd.read_excel(...).to_dict(...)`,
which may raise. The statements are sequential with no `try`/`finally`: a
parse exception propagates immediately, and `os.remove` runs only on the
fall-through path after a successful parse. -/
def download_stock (parseOutcome : Except String (List FeedRecord)) (s0 : FsState) :
    Except String (List FeedRecord) × FsState :=
  let s1 : FsState := { s0 with ostatkiExists := true }
  match parseOutcome with
  | Except.error e => (Except.error e, s1)
  | Except.ok watch_remnants => (Except.ok watch_remnants, osRemoveOstatki s1)

/-! ## Lemmas about price_conversion -/

theorem splitOnDot_headD (l : List Char) :
    (splitOnDot l).headD [] = l.takeWhile (fun c => c != '.') := by
  induction l with
  | nil => rfl
  | cons c cs ih =>
    by_cases hc : c = '.'
    · subst hc
      simp [splitOnDot]
    · have hb : (c != '.') = true := by simpa using hc
      simp only [splitOnDot, if_neg hc, List.takeWhile_cons, hb]
      cases h : splitOnDot cs with
      | nil => rw [h] at ih; simpa using congrArg (c :: ·) ih
      | cons hd tl => rw [h] at ih; simpa using congrArg (c :: ·) ih

/-- C5: for every input string, `price_conversion` keeps exactly the decimal
digits of the part of the string before the first `"."`; when the string has
no `"."` the whole string is the integer part; the fractional part never
influences the result (it is cut, not rounded); and the three concrete
examples of the spec hold. -/
theorem price_conversion_integer_part :
    (∀ s : String, price_conversion s
        = String.mk ((s.toList.takeWhile (fun c => c != '.')).filter Char.isDigit)) ∧
    (∀ s : String, '.' ∉ s.toList →
        price_conversion s = String.mk (s.toList.filter Char.isDigit)) ∧
    price_conversion "5'990.00 руб." = "5990" ∧
    price_conversion "123" = "123" ∧
    price_conversion "1.99" = "1" := by
  have key : ∀ s : String, price_conversion s
      = String.mk ((s.toList.takeWhile (fun c => c != '.')).filter Char.isDigit) := by
    intro s
    unfold price_conversion
    rw [splitOnDot_headD]
  refine ⟨key, ?_, rfl, rfl, rfl⟩
  intro s hs
  rw [key s]
  congr 1
  congr 1
  rw [List.takeWhile_eq_self_iff]
  intro x hx
  have hx' : x ≠ '.' := fun h => hs (h ▸ hx)
  simpa using hx'

theorem price_conversion_integer_part_witness :
    price_conversion "123"
        = String.mk (("123".toList.takeWhile (fun c => c != '.')).filter Char.isDigit) ∧
    ('.' ∉ "123".toList) ∧
    price_conversion "123" = String.mk ("123".toList.filter Char.isDigit) :=
  ⟨price_conversion_integer_part.1 "123", by decide,
    price_conversion_integer_part.2.1 "123" (by decide)⟩

/-- C9: `price_conversion` is total and its output consists of decimal digits
only, but it can be the empty string (e.g. on `"руб."`), and the Yandex
create_prices then raises when `int` is applied to that empty result. -/
theorem price_conversion_digits :
    (∀ s : String, ∀ c ∈ (price_conversion s).toList, c.isDigit = true) ∧
    price_conversion "руб." = "" ∧
    Market.create_prices [⟨"A", "5", "руб."⟩] ["A"] = none := by
  refine ⟨?_, rfl, rfl⟩
  intro s c hc
  exact List.of_mem_filter hc

theorem price_conversion_digits_witness :
    ('1' ∈ (price_conversion "1a").toList) ∧ '1'.isDigit = true :=
  ⟨by decide, price_conversion_digits.1 "1a" '1' (by decide)⟩

/-! ## Lemmas about divide -/

theorem chunksOf_nil {α : Type} (n : Nat) : chunksOf n ([] : List α) = [] := by
  cases n <;> simp [chunksOf]

theorem chunksOf_cons {α : Type} (m : Nat) (x : α) (xs : List α) :
    chunksOf (m + 1) (x :: xs)
      = (x :: xs).take (m + 1) :: chunksOf (m + 1) ((x :: xs).drop (m + 1)) := by
  simp [chunksOf]

theorem chunksOf_cons_pos {α : Type} (n : Nat) (hn : 0 < n) (x : α) (xs : List α) :
    chunksOf n (x :: xs) = (x :: xs).take n :: chunksOf n ((x :: xs).drop n) := by
  obtain ⟨m, rfl⟩ : ∃ m, n = m + 1 := ⟨n - 1, by omega⟩
  exact chunksOf_cons m x xs

theorem chunksOf_eq_nil_iff {α : Type} (n : Nat) (hn : 0 < n) (l : List α) :
    chunksOf n l = [] ↔ l = [] := by
  cases l with
  | nil => simp [chunksOf_nil]
  | cons x xs => rw [chunksOf_cons_pos n hn]; simp

theorem rangeMap_eq_chunksOf {α : Type} (n : Nat) (hn : 0 < n) (l : List α) :
    (List.range ((l.length + n - 1) / n)).map (fun j => (l.drop (n * j)).take n)
      = chunksOf n l := by
  have key : ∀ (fuel : Nat) (l : List α), l.length ≤ fuel →
      (List.range ((l.length + n - 1) / n)).map (fun j => (l.drop (n * j)).take n)
        = chunksOf n l := by
    intro fuel
    induction fuel with
    | zero =>
      intro l hl
      have hnil : l = [] := List.eq_nil_of_length_eq_zero (Nat.le_zero.mp hl)
      subst hnil
      have h0 : ((List.nil : List α).length + n - 1) / n = 0 := by
        simp only [List.length_nil, Nat.zero_add]
        exact Nat.div_eq_of_lt (by omega)
      rw [h0, chunksOf_nil]
      rfl
    | succ fuel ih =>
      intro l hl
      cases l with
      | nil =>
        have h0 : ((List.nil : List α).length + n - 1) / n = 0 := by
          simp only [List.length_nil, Nat.zero_add]
          exact Nat.div_eq_of_lt (by omega)
        rw [h0, chunksOf_nil]
        rfl
      | cons x xs =>
        have hk : ((x :: xs).length + n - 1) / n = ((x :: xs).length - 1) / n + 1 := by
          have h1 : (x :: xs).length + n - 1 = ((x :: xs).length - 1) + n := by
            simp only [List.length_cons]; omega
          rw [h1, Nat.add_div_right _ hn]
        rw [hk, List.range_succ_eq_map, List.map_cons, List.map_map, chunksOf_cons_pos n hn]
        have hhead : ((x :: xs).drop (n * 0)).take n = (x :: xs).take n := by
          simp
        rw [hhead]
        congr 1
        have harg : (((x :: xs).drop n).length + n - 1) / n = ((x :: xs).length - 1) / n := by
          rw [List.length_drop]
          rcases le_or_lt n (x :: xs).length with h | h
          · congr 1
            omega
          · have e1 : (x :: xs).length - n = 0 := by omega
            rw [e1]
            rw [Nat.div_eq_of_lt (by omega), Nat.div_eq_of_lt (by omega)]
        have ihd := ih ((x :: xs).drop n) (by
          rw [List.length_drop]
          simp only [List.length_cons] at hl ⊢
          omega)
        rw [harg] at ihd
        rw [← ihd]
        apply List.map_congr_left
        intro j hj
        simp only [Function.comp_apply, List.drop_drop]
        congr 2
        rw [Nat.mul_succ]
        omega
  exact key l.length l (Nat.le_refl _)

theorem divide_pos_eq {α : Type} (l : List α) (n : Nat) (hn : 0 < n) :
    divide l (n : Int) = some (chunksOf n l) := by
  have hne : ((n : Int) = 0) = False := by
    simp only [eq_iff_iff, iff_false]
    exact_mod_cast hn.ne'
  have hpos : ((0 : Int) < (n : Int)) = True := by
    simp only [eq_iff_iff, iff_true]
    exact_mod_cast hn
  unfold divide pyRange
  rw [if_neg (by exact_mod_cast hn.ne'), if_pos (by exact_mod_cast hn)]
  simp only [Option.map_some', List.map_map, Int.toNat_natCast]
  rw [← rangeMap_eq_chunksOf n hn l]
  congr 1

theorem chunksOf_flatten {α : Type} (n : Nat) (hn : 0 < n) (l : List α) :
    (chunksOf n l).flatten = l := by
  have key : ∀ (fuel : Nat) (l : List α), l.length ≤ fuel → (chunksOf n l).flatten = l := by
    intro fuel
    induction fuel with
    | zero =>
      intro l hl
      have hnil : l = [] := List.eq_nil_of_length_eq_zero (Nat.le_zero.mp hl)
      subst hnil
      rw [chunksOf_nil]
      rfl
    | succ fuel ih =>
      intro l hl
      cases l with
      | nil => rw [chunksOf_nil]; rfl
      | cons x xs =>
        rw [chunksOf_cons_pos n hn, List.flatten_cons,
          ih ((x :: xs).drop n) (by
            rw [List.length_drop]
            simp only [List.length_cons] at hl ⊢
            omega)]
        exact List.take_append_drop n (x :: xs)
  exact key l.length l (Nat.le_refl _)

theorem chunksOf_dropLast_length {α : Type} (n : Nat) (hn : 0 < n) (l : List α) :
    ∀ c ∈ (chunksOf n l).dropLast, c.length = n := by
  have key : ∀ (fuel : Nat) (l : List α), l.length ≤ fuel →
      ∀ c ∈ (chunksOf n l).dropLast, c.length = n := by
    intro fuel
    induction fuel with
    | zero =>
      intro l hl c hc
      have hnil : l = [] := List.eq_nil_of_length_eq_zero (Nat.le_zero.mp hl)
      subst hnil
      rw [chunksOf_nil] at hc
      simp at hc
    | succ fuel ih =>
      intro l hl c hc
      cases l with
      | nil => rw [chunksOf_nil] at hc; simp at hc
      | cons x xs =>
        rw [chunksOf_cons_pos n hn] at hc
        cases hr : chunksOf n ((x :: xs).drop n) with
        | nil => rw [hr] at hc; simp at hc
        | cons r rs =>
          rw [hr, List.dropLast_cons₂, List.mem_cons] at hc
          rcases hc with hc | hc
          · subst hc
            have hdrop : (x :: xs).drop n ≠ [] := by
              intro hdn
              rw [hdn, chunksOf_nil] at hr
              exact List.noConfusion hr
            have hle : n < (x :: xs).length := by
              by_contra hcon
              exact hdrop (List.drop_eq_nil_iff.mpr (by omega))
            rw [List.length_take]
            omega
          · rw [← hr] at hc
            exact ih ((x :: xs).drop n) (by
              rw [List.length_drop]
              simp only [List.length_cons] at hl ⊢
              omega) c hc
  exact key l.length l (Nat.le_refl _)

theorem chunksOf_getLast?_length {α : Type} (n : Nat) (hn : 0 < n) (l : List α) :
    ∀ c, (chunksOf n l).getLast? = some c →
      c.length = if l.length % n = 0 then n else l.length % n := by
  have key : ∀ (fuel : Nat) (l : List α), l.length ≤ fuel →
      ∀ c, (chunksOf n l).getLast? = some c →
        c.length = if l.length % n = 0 then n else l.length % n := by
    intro fuel
    induction fuel with
    | zero =>
      intro l hl c hc
      have hnil : l = [] := List.eq_nil_of_length_eq_zero (Nat.le_zero.mp hl)
      subst hnil
      rw [chunksOf_nil] at hc
      exact Option.noConfusion hc
    | succ fuel ih =>
      intro l hl c hc
      cases l with
      | nil => rw [chunksOf_nil] at hc; exact Option.noConfusion hc
      | cons x xs =>
        rw [chunksOf_cons_pos n hn] at hc
        cases hr : chunksOf n ((x :: xs).drop n) with
        | nil =>
          rw [hr] at hc
          simp only [List.getLast?_singleton, Option.some_inj] at hc
          subst hc
          have hdrop : (x :: xs).drop n = [] :=
            (chunksOf_eq_nil_iff n hn _).mp hr
          have hle : (x :: xs).length ≤ n := List.drop_eq_nil_iff.mp hdrop
          have hpos : 0 < (x :: xs).length := by simp
          rw [List.length_take]
          by_cases heq : (x :: xs).length = n
          · rw [heq]
            simp [Nat.mod_self]
          · have hlt : (x :: xs).length < n := by omega
            rw [Nat.mod_eq_of_lt hlt, if_neg (by omega)]
            omega
        | cons r rs =>
          rw [hr, List.getLast?_cons_cons, ← hr] at hc
          have hdrop : (x :: xs).drop n ≠ [] := by
            intro hdn
            rw [hdn, chunksOf_nil] at hr
            exact List.noConfusion hr
          have hlt : n < (x :: xs).length := by
            by_contra hcon
            exact hdrop (List.drop_eq_nil_iff.mpr (by omega))
          have ihc := ih ((x :: xs).drop n) (by
            rw [List.length_drop]
            simp only [List.length_cons] at hl ⊢
            omega) c hc
          rw [List.length_drop] at ihc
          have hmod : ((x :: xs).length - n) % n = (x :: xs).length % n := by
            conv_rhs => rw [← Nat.sub_add_cancel (Nat.le_of_lt hlt)]
            rw [Nat.add_mod_right]
          rw [hmod] at ihc
          exact ihc
  exact key l.length l (Nat.le_refl _)

theorem chunksOf_length_eq {α : Type} (n : Nat) (hn : 0 < n) (l : List α) :
    (chunksOf n l).length = (l.length + n - 1) / n := by
  rw [← rangeMap_eq_chunksOf n hn l]
  simp

/-- C4: for a positive chunk size `n`, `divide` succeeds and yields chunks
whose concatenation is exactly the input (contiguous, in order, every element
exactly once), every chunk but the last has length `n`, and the last chunk
holds `len % n` elements (`n` when `n` divides `len`); in particular a
2500-element list divided by 1000 gives chunk sizes 1000, 1000, 500. -/
theorem divide_chunks {α : Type} (lst : List α) (n : Nat) (hn : 0 < n) :
    ∃ chunks, divide lst (n : Int) = some chunks ∧
      chunks.flatten = lst ∧
      (∀ c ∈ chunks.dropLast, c.length = n) ∧
      (lst ≠ [] → chunks ≠ []) ∧
      (∀ c, chunks.getLast? = some c →
        c.length = if lst.length % n = 0 then n else lst.length % n) ∧
      (divide (List.range 2500) ((1000 : Nat) : Int)).map (fun cs => cs.map List.length)
        = some [1000, 1000, 500] := by
  refine ⟨chunksOf n lst, divide_pos_eq lst n hn, chunksOf_flatten n hn lst,
    chunksOf_dropLast_length n hn lst,
    fun hl => fun hcon => hl ((chunksOf_eq_nil_iff n hn lst).mp hcon),
    chunksOf_getLast?_length n hn lst, ?_⟩
  rw [divide_pos_eq (List.range 2500) 1000 (by omega)]
  have hlen : (chunksOf 1000 (List.range 2500)).length = 3 := by
    rw [chunksOf_length_eq 1000 (by omega), List.length_range]
  obtain ⟨c0, c1, c2, hc⟩ := List.length_eq_three.mp hlen
  have h0 : c0.length = 1000 := by
    apply chunksOf_dropLast_length 1000 (by omega) (List.range 2500) c0
    rw [hc]
    simp
  have h1 : c1.length = 1000 := by
    apply chunksOf_dropLast_length 1000 (by omega) (List.range 2500) c1
    rw [hc]
    simp
  have h2 : c2.length = 500 := by
    have hq := chunksOf_getLast?_length 1000 (by omega) (List.range 2500) c2 (by
      rw [hc]
      rfl)
    rw [List.length_range] at hq
    norm_num at hq
    exact hq
  rw [hc]
  simp [h0, h1, h2]

theorem divide_chunks_witness :
    0 < 2 ∧
    ∃ chunks, divide ([1, 2, 3, 4, 5] : List Nat) ((2 : Nat) : Int) = some chunks ∧
      chunks.flatten = [1, 2, 3, 4, 5] ∧
      (∀ c ∈ chunks.dropLast, c.length = 2) ∧
      (([1, 2, 3, 4, 5] : List Nat) ≠ [] → chunks ≠ []) ∧
      (∀ c, chunks.getLast? = some c →
        c.length = if ([1, 2, 3, 4, 5] : List Nat).length % 2 = 0 then 2
          else ([1, 2, 3, 4, 5] : List Nat).length % 2) ∧
      (divide (List.range 2500) ((1000 : Nat) : Int)).map (fun cs => cs.map List.length)
        = some [1000, 1000, 500] :=
  ⟨by decide, divide_chunks [1, 2, 3, 4, 5] 2 (by decide)⟩

/-- C8: `divide` with chunk size 0 raises (the `range` `ValueError`) before
yielding anything; with a negative chunk size it silently yields no chunks at
all, whatever the input list. -/
theorem divide_nonpositive {α : Type} (lst : List α) (n : Int) :
    divide lst 0 = none ∧ (n < 0 → divide lst n = some []) := by
  constructor
  · rfl
  · intro hneg
    unfold divide pyRange
    rw [if_neg (by omega), if_neg (by omega)]
    have h3 : (-(lst.length : Int)).toNat = 0 := by omega
    have h4 : ((-(lst.length : Int)).toNat + (-n).toNat - 1) / (-n).toNat = 0 := by
      rw [h3]
      exact Nat.div_eq_of_lt (by omega)
    rw [h4]
    rfl

theorem divide_nonpositive_witness :
    divide ([1, 2, 3] : List Nat) 0 = none ∧
    ((-1 : Int) < 0) ∧
    divide ([1, 2, 3] : List Nat) (-1) = some [] :=
  ⟨(divide_nonpositive ([1, 2, 3] : List Nat) (-1)).1, by decide,
    (divide_nonpositive ([1, 2, 3] : List Nat) (-1)).2 (by decide)⟩

/-! ## Lemmas about the pagination loops -/

theorem ozonCollect_of_signal (pages : Nat → OzonPage) :
    ∀ (d j : Nat) (acc : List OzonProduct), ozonSignal pages (j + d) →
      acc.length = ozonAccLen pages j →
      ∃ r, ozonCollect pages (d + 1) j acc = some r := by
  intro d
  induction d with
  | zero =>
    intro j acc hsig hacc
    have hcond : (pages j).total = (acc ++ (pages j).items).length := by
      rw [List.length_append, hacc]
      simpa [ozonSignal, ozonAccLen] using hsig
    exact ⟨acc ++ (pages j).items, by simp [ozonCollect, hcond]⟩
  | succ d ih =>
    intro j acc hsig hacc
    by_cases hcond : (pages j).total = (acc ++ (pages j).items).length
    · exact ⟨acc ++ (pages j).items, by simp [ozonCollect, hcond]⟩
    · have hsig2 : ozonSignal pages ((j + 1) + d) := by
        rw [show (j + 1) + d = j + (d + 1) by omega]
        exact hsig
      have hacc2 : (acc ++ (pages j).items).length = ozonAccLen pages (j + 1) := by
        simp [ozonAccLen, List.length_append, hacc]
      obtain ⟨r, hr⟩ := ih (j + 1) (acc ++ (pages j).items) hsig2 hacc2
      refine ⟨r, ?_⟩
      simp only [ozonCollect]
      rw [if_neg hcond]
      exact hr

theorem ozonCollect_some_signal (pages : Nat → OzonPage) :
    ∀ (fuel j : Nat) (acc : List OzonProduct) (r : List OzonProduct),
      acc.length = ozonAccLen pages j →
      ozonCollect pages fuel j acc = some r → ∃ k, ozonSignal pages k := by
  intro fuel
  induction fuel with
  | zero =>
    intro j acc r hacc h
    exact absurd h (by simp [ozonCollect])
  | succ fuel ih =>
    intro j acc r hacc h
    by_cases hcond : (pages j).total = (acc ++ (pages j).items).length
    · refine ⟨j, ?_⟩
      simp [ozonSignal, ozonAccLen, hcond, List.length_append, hacc]
    · have h2 : ozonCollect pages fuel (j + 1) (acc ++ (pages j).items) = some r := by
        have h3 := h
        simp only [ozonCollect] at h3
        rwa [if_neg hcond] at h3
      exact ih (j + 1) _ r (by simp [ozonAccLen, List.length_append, hacc]) h2

theorem yandexCollect_of_signal (pages : Nat → YandexPage) :
    ∀ (d j : Nat) (acc : List YandexEntry), yandexSignal pages (j + d) →
      ∃ r, yandexCollect pages (d + 1) j acc = some r := by
  intro d
  induction d with
  | zero =>
    intro j acc hsig
    have hc : pyFalsy (pages j).nextPageToken = true := by
      simpa [yandexSignal] using hsig
    exact ⟨acc ++ (pages j).offerMappingEntries, by simp [yandexCollect, hc]⟩
  | succ d ih =>
    intro j acc hsig
    by_cases hcond : pyFalsy (pages j).nextPageToken = true
    · exact ⟨acc ++ (pages j).offerMappingEntries, by simp [yandexCollect, hcond]⟩
    · have hsig2 : yandexSignal pages ((j + 1) + d) := by
        rw [show (j + 1) + d = j + (d + 1) by omega]
        exact hsig
      obtain ⟨r, hr⟩ := ih (j + 1) (acc ++ (pages j).offerMappingEntries) hsig2
      refine ⟨r, ?_⟩
      simp only [yandexCollect]
      rw [if_neg hcond]
      exact hr

theorem yandexCollect_some_signal (pages : Nat → YandexPage) :
    ∀ (fuel j : Nat) (acc : List YandexEntry) (r : List YandexEntry),
      yandexCollect pages fuel j acc = some r → ∃ k, yandexSignal pages k := by
  intro fuel
  induction fuel with
  | zero =>
    intro j acc r h
    exact absurd h (by simp [yandexCollect])
  | succ fuel ih =>
    intro j acc r h
    by_cases hcond : pyFalsy (pages j).nextPageToken = true
    · exact ⟨j, hcond⟩
    · have h2 : yandexCollect pages fuel (j + 1) (acc ++ (pages j).offerMappingEntries)
          = some r := by
        have h3 := h
        simp only [yandexCollect] at h3
        rwa [if_neg hcond] at h3
      exact ih (j + 1) _ r h2

/-- C7: each marketplace's pagination loop terminates exactly when its own
termination signal occurs — the Ozon loop when the reported `total` equals
the number of accumulated items, the Yandex loop when the continuation token
is empty or absent; whenever the signal eventually occurs, the loop
terminates (within `k + 1` requests for a signal at response `k`). -/
theorem get_offer_ids_signal (pagesO : Nat → OzonPage) (pagesY : Nat → YandexPage) :
    ((∃ k, ozonSignal pagesO k) ↔ ∃ fuel r, Seller.get_offer_ids pagesO fuel = some r) ∧
    (∀ k, ozonSignal pagesO k → ∃ r, ozonCollect pagesO (k + 1) 0 [] = some r) ∧
    ((∃ k, yandexSignal pagesY k) ↔ ∃ fuel r, Market.get_offer_ids pagesY fuel = some r) ∧
    (∀ k, yandexSignal pagesY k → ∃ r, yandexCollect pagesY (k + 1) 0 [] = some r) := by
  have hO : ∀ k, ozonSignal pagesO k → ∃ r, ozonCollect pagesO (k + 1) 0 [] = some r := by
    intro k hk
    exact ozonCollect_of_signal pagesO k 0 [] (by simpa using hk) rfl
  have hY : ∀ k, yandexSignal pagesY k → ∃ r, yandexCollect pagesY (k + 1) 0 [] = some r := by
    intro k hk
    exact yandexCollect_of_signal pagesY k 0 [] (by simpa using hk)
  refine ⟨⟨?_, ?_⟩, hO, ⟨?_, ?_⟩, hY⟩
  · rintro ⟨k, hk⟩
    obtain ⟨r, hr⟩ := hO k hk
    exact ⟨k + 1, r.map (fun p => p.offer_id), by simp [Seller.get_offer_ids, hr]⟩
  · rintro ⟨fuel, r, hr⟩
    simp only [Seller.get_offer_ids, Option.map_eq_some'] at hr
    obtain ⟨ps, hps, _⟩ := hr
    exact ozonCollect_some_signal pagesO fuel 0 [] ps rfl hps
  · rintro ⟨k, hk⟩
    obtain ⟨r, hr⟩ := hY k hk
    exact ⟨k + 1, r.map (fun e => e.shopSku), by simp [Market.get_offer_ids, hr]⟩
  · rintro ⟨fuel, r, hr⟩
    simp only [Market.get_offer_ids, Option.map_eq_some'] at hr
    obtain ⟨es, hes, _⟩ := hr
    exact yandexCollect_some_signal pagesY fuel 0 [] es hes

theorem get_offer_ids_signal_witness :
    (∃ r, ozonCollect (fun _ => OzonPage.mk [OzonProduct.mk "x"] 1 "") 1 0 [] = some r) ∧
    (∃ r, yandexCollect (fun _ => YandexPage.mk [] none) 1 0 [] = some r) :=
  ⟨(get_offer_ids_signal (fun _ => OzonPage.mk [OzonProduct.mk "x"] 1 "")
      (fun _ => YandexPage.mk [] none)).2.1 0 (by simp [ozonSignal, ozonAccLen]),
    (get_offer_ids_signal (fun _ => OzonPage.mk [OzonProduct.mk "x"] 1 "")
      (fun _ => YandexPage.mk [] none)).2.2.2 0 (by simp [yandexSignal, pyFalsy])⟩

/-! ## download_stock scratch-file cleanup -/

/-- C6 evidence: after a successful parse the scratch file `ostatki.xls` has
been removed, but when the parse raises, the exception propagates before
`os.remove` and the scratch file is left on disk — the code removes the file
only on the success path, not regardless of parse outcome. -/
theorem download_stock_scratch_file :
    (download_stock (Except.ok []) ⟨false⟩).2.ostatkiExists = false ∧
    (download_stock (Except.error "XLRDError: bad file") ⟨false⟩).2.ostatkiExists = true :=
  ⟨rfl, rfl⟩

/-! ## Lemmas about the seller reconciliation loops -/

theorem createStocksLoop_prefix :
    ∀ (feed : List FeedRecord) (ids : List String) (acc out : List Seller.StockUpdate)
      (rem : List String),
      Seller.createStocksLoop feed ids acc = some (out, rem) → ∃ t, out = acc ++ t := by
  intro feed
  induction feed with
  | nil =>
    intro ids acc out rem h
    simp only [Seller.createStocksLoop, Option.some.injEq, Prod.mk.injEq] at h
    exact ⟨[], by rw [← h.1]; simp⟩
  | cons w ws ih =>
    intro ids acc out rem h
    by_cases hw : w.code ∈ ids
    · simp only [Seller.createStocksLoop, if_pos hw] at h
      cases hq : stockQuantize w.quantity with
      | none => rw [hq] at h; exact absurd h (by simp)
      | some v =>
        rw [hq] at h
        obtain ⟨t, ht⟩ := ih _ _ _ _ h
        exact ⟨{ offer_id := w.code, stock := v } :: t, by rw [ht]; simp⟩
    · simp only [Seller.createStocksLoop, if_neg hw] at h
      exact ih _ _ _ _ h

theorem countStock_append (a b : List Seller.StockUpdate) (i : String) :
    countStock (a ++ b) i = countStock a i + countStock b i := by
  simp [countStock, List.filter_append]

theorem countStock_map_zero (rem : List String) (i : String) :
    countStock (rem.map (fun offer_id => { offer_id := offer_id, stock := 0 })) i
      = (rem.filter (fun j => j == i)).length := by
  induction rem with
  | nil => rfl
  | cons r rs ih =>
    simp only [List.map_cons, countStock, List.filter_cons] at ih ⊢
    cases hb : (r == i) with
    | false => simpa [hb] using ih
    | true => simp only [hb, if_true, List.length_cons]; omega

theorem nodup_filter_beq_length (l : List String) (i : String) (hnd : l.Nodup) :
    (l.filter (fun j => j == i)).length = if i ∈ l then 1 else 0 := by
  induction l with
  | nil => simp
  | cons x xs ih =>
    obtain ⟨hx, hxs⟩ := List.nodup_cons.mp hnd
    by_cases hxi : x = i
    · subst hxi
      rw [List.filter_cons, if_pos (by simp), List.length_cons, ih hxs, if_neg hx,
        if_pos (List.mem_cons_self x xs)]
    · rw [List.filter_cons, if_neg (by simp [hxi]), ih hxs]
      by_cases hmem : i ∈ xs
      · rw [if_pos hmem, if_pos (List.mem_cons_of_mem x hmem)]
      · rw [if_neg hmem, if_neg (by simp [hmem, Ne.symm hxi])]

theorem createStocksLoop_spec :
    ∀ (feed : List FeedRecord) (ids : List String) (acc out : List Seller.StockUpdate)
      (rem : List String), ids.Nodup →
      Seller.createStocksLoop feed ids acc = some (out, rem) →
      rem.Nodup ∧ rem.Sublist ids ∧
      (∀ i, i ∈ rem ↔ i ∈ ids ∧ ∀ w ∈ feed, w.code ≠ i) ∧
      (∀ i, countStock out i
          = countStock acc i + (if i ∈ ids ∧ i ∉ rem then 1 else 0)) := by
  intro feed
  induction feed with
  | nil =>
    intro ids acc out rem hnd h
    simp only [Seller.createStocksLoop, Option.some.injEq, Prod.mk.injEq] at h
    obtain ⟨h1, h2⟩ := h
    subst h1; subst h2
    refine ⟨hnd, List.Sublist.refl _, by simp, ?_⟩
    intro i
    rw [if_neg (fun hcon => hcon.2 hcon.1)]
    omega
  | cons w ws ih =>
    intro ids acc out rem hnd h
    by_cases hw : w.code ∈ ids
    · simp only [Seller.createStocksLoop, if_pos hw] at h
      cases hq : stockQuantize w.quantity with
      | none => rw [hq] at h; exact absurd h (by simp)
      | some v =>
        rw [hq] at h
        obtain ⟨hrnd, hrsub, hriff, hrcount⟩ :=
          ih (ids.erase w.code) (acc ++ [{ offer_id := w.code, stock := v }]) out rem
            (hnd.erase w.code) h
        refine ⟨hrnd, hrsub.trans (List.erase_sublist w.code ids), ?_, ?_⟩
        · intro i
          rw [hriff i, hnd.mem_erase_iff]
          constructor
          · rintro ⟨⟨hne, hmem⟩, hall⟩
            refine ⟨hmem, ?_⟩
            intro v' hv'
            rcases List.mem_cons.mp hv' with rfl | hv'
            · exact Ne.symm hne
            · exact hall v' hv'
          · rintro ⟨hmem, hall⟩
            exact ⟨⟨Ne.symm (hall w (List.mem_cons_self w ws)), hmem⟩,
              fun v' hv' => hall v' (List.mem_cons_of_mem w hv')⟩
        · intro i
          rw [hrcount i, countStock_append]
          by_cases hiw : i = w.code
          · have hne1 : ¬(i ∈ ids.erase w.code ∧ i ∉ rem) := by
              rintro ⟨hc1, -⟩
              rw [hiw] at hc1
              exact hnd.not_mem_erase hc1
            have hmemrem : i ∉ rem := by
              intro hc
              have hc2 := hrsub.subset hc
              rw [hiw] at hc2
              exact hnd.not_mem_erase hc2
            have hpos2 : i ∈ ids ∧ i ∉ rem := ⟨by rw [hiw]; exact hw, hmemrem⟩
            rw [if_neg hne1, if_pos hpos2]
            have h3 : countStock [{ offer_id := w.code, stock := v }] i = 1 := by
              simp [countStock, hiw]
            omega
          · have h1 : countStock [{ offer_id := w.code, stock := v }] i = 0 := by
              simp [countStock, Ne.symm hiw]
            have h2 : (i ∈ ids.erase w.code) ↔ (i ∈ ids) :=
              List.mem_erase_of_ne hiw
            rw [h1]
            by_cases hc : i ∈ ids ∧ i ∉ rem
            · rw [if_pos ⟨h2.mpr hc.1, hc.2⟩, if_pos hc]
            · rw [if_neg (fun hcon => hc ⟨h2.mp hcon.1, hcon.2⟩), if_neg hc]
    · simp only [Seller.createStocksLoop, if_neg hw] at h
      obtain ⟨hrnd, hrsub, hriff, hrcount⟩ := ih ids acc out rem hnd h
      refine ⟨hrnd, hrsub, ?_, hrcount⟩
      intro i
      rw [hriff i]
      constructor
      · rintro ⟨hmem, hall⟩
        refine ⟨hmem, ?_⟩
        intro v' hv'
        rcases List.mem_cons.mp hv' with rfl | hv'
        · exact fun hcon => hw (hcon ▸ hmem)
        · exact hall v' hv'
      · rintro ⟨hmem, hall⟩
        exact ⟨hmem, fun v' hv' => hall v' (List.mem_cons_of_mem w hv')⟩

theorem create_stocks_spec (watch_remnants : List FeedRecord) (offer_ids : List String)
    (hnd : offer_ids.Nodup) (out : List Seller.StockUpdate) (rem : List String)
    (h : Seller.create_stocks watch_remnants offer_ids = some (out, rem)) :
    rem.Nodup ∧ rem.Sublist offer_ids ∧
    (∀ i, i ∈ rem ↔ i ∈ offer_ids ∧ ∀ w ∈ watch_remnants, w.code ≠ i) ∧
    (∀ i ∈ offer_ids, countStock out i = 1) ∧
    (∀ i ∈ rem, Seller.StockUpdate.mk i 0 ∈ out) := by
  simp only [Seller.create_stocks, Option.map_eq_some'] at h
  obtain ⟨⟨a, rem2⟩, hloop, heq⟩ := h
  simp only [Prod.mk.injEq] at heq
  obtain ⟨hout, hrem⟩ := heq
  subst hrem
  obtain ⟨hrnd, hrsub, hriff, hrcount⟩ :=
    createStocksLoop_spec watch_remnants offer_ids [] a rem2 hnd hloop
  refine ⟨hrnd, hrsub, hriff, ?_, ?_⟩
  · intro i hi
    rw [← hout, countStock_append, hrcount i, countStock_map_zero,
      nodup_filter_beq_length rem2 i hrnd]
    have hz : countStock [] i = 0 := rfl
    by_cases hmem : i ∈ rem2
    · rw [if_neg (fun hcon => hcon.2 hmem), if_pos hmem, hz]
    · rw [if_pos ⟨hi, hmem⟩, if_neg hmem, hz]
  · intro i hi
    rw [← hout]
    refine List.mem_append_right _ ?_
    exact List.mem_map.mpr ⟨i, hi, rfl⟩

theorem createPricesLoop_snd :
    ∀ (feed : List FeedRecord) (ids : List String) (acc : List Seller.PriceUpdate),
      (Seller.createPricesLoop feed ids acc).2 = ids := by
  intro feed
  induction feed with
  | nil => intro ids acc; rfl
  | cons w ws ih =>
    intro ids acc
    by_cases hw : w.code ∈ ids
    · simp only [Seller.createPricesLoop, if_pos hw]
      exact ih ids _
    · simp only [Seller.createPricesLoop, if_neg hw]
      exact ih ids acc

theorem countSellerPrice_append (a b : List Seller.PriceUpdate) (i : String) :
    countSellerPrice (a ++ b) i = countSellerPrice a i + countSellerPrice b i := by
  simp [countSellerPrice, List.filter_append]

theorem countSellerPrice_singleton (p : Seller.PriceUpdate) (i : String) :
    countSellerPrice [p] i = if p.offer_id = i then 1 else 0 := by
  by_cases hb : p.offer_id = i <;> simp [countSellerPrice, hb]

theorem createPricesLoop_count :
    ∀ (feed : List FeedRecord) (ids : List String) (acc : List Seller.PriceUpdate)
      (i : String),
      countSellerPrice (Seller.createPricesLoop feed ids acc).1 i
        = countSellerPrice acc i
          + (if i ∈ ids then (feed.filter (fun w => w.code == i)).length else 0) := by
  intro feed
  induction feed with
  | nil =>
    intro ids acc i
    simp only [Seller.createPricesLoop, List.filter_nil, List.length_nil]
    by_cases hi : i ∈ ids <;> simp [hi]
  | cons w ws ih =>
    intro ids acc i
    by_cases hi : i ∈ ids
    · by_cases hw : w.code ∈ ids
      · simp only [Seller.createPricesLoop, if_pos hw]
        rw [ih ids _ i, countSellerPrice_append, countSellerPrice_singleton]
        simp only [if_pos hi, List.filter_cons]
        by_cases hb : w.code = i
        · rw [if_pos hb, if_pos (by simp [hb]), List.length_cons]
          omega
        · rw [if_neg hb, if_neg (by simp [hb])]
          omega
      · simp only [Seller.createPricesLoop, if_neg hw]
        rw [ih ids acc i]
        simp only [if_pos hi, List.filter_cons]
        have hb : ¬(w.code = i) := fun hcon => hw (hcon ▸ hi)
        rw [if_neg (by simp [hb])]
    · by_cases hw : w.code ∈ ids
      · simp only [Seller.createPricesLoop, if_pos hw]
        rw [ih ids _ i, countSellerPrice_append, countSellerPrice_singleton]
        simp only [if_neg hi]
        have hb : ¬(w.code = i) := fun hcon => hi (hcon ▸ hw)
        rw [if_neg hb]
      · simp only [Seller.createPricesLoop, if_neg hw]
        rw [ih ids acc i]
        simp only [if_neg hi]

theorem createStocksLoop_perm :
    ∀ (feed : List FeedRecord) (ids ids2 : List String) (acc : List Seller.StockUpdate),
      ids.Perm ids2 →
      (Seller.createStocksLoop feed ids acc = none →
        Seller.createStocksLoop feed ids2 acc = none) ∧
      (∀ out rem, Seller.createStocksLoop feed ids acc = some (out, rem) →
        ∃ rem2, Seller.createStocksLoop feed ids2 acc = some (out, rem2) ∧ rem.Perm rem2) := by
  intro feed
  induction feed with
  | nil =>
    intro ids ids2 acc hperm
    constructor
    · intro h
      exact absurd h (by simp [Seller.createStocksLoop])
    · intro out rem h
      simp only [Seller.createStocksLoop, Option.some.injEq, Prod.mk.injEq] at h
      obtain ⟨h1, h2⟩ := h
      subst h1; subst h2
      exact ⟨ids2, rfl, hperm⟩
  | cons w ws ih =>
    intro ids ids2 acc hperm
    by_cases hw : w.code ∈ ids
    · have hw2 : w.code ∈ ids2 := hperm.mem_iff.mp hw
      constructor
      · intro h
        simp only [Seller.createStocksLoop, if_pos hw] at h
        simp only [Seller.createStocksLoop, if_pos hw2]
        cases hq : stockQuantize w.quantity with
        | none => rfl
        | some v =>
          rw [hq] at h
          exact (ih _ _ _ (hperm.erase w.code)).1 h
      · intro out rem h
        simp only [Seller.createStocksLoop, if_pos hw] at h
        simp only [Seller.createStocksLoop, if_pos hw2]
        cases hq : stockQuantize w.quantity with
        | none => rw [hq] at h; exact absurd h (by simp)
        | some v =>
          rw [hq] at h
          exact (ih _ _ _ (hperm.erase w.code)).2 out rem h
    · have hw2 : w.code ∉ ids2 := fun hcon => hw (hperm.mem_iff.mpr hcon)
      constructor
      · intro h
        simp only [Seller.createStocksLoop, if_neg hw] at h
        simp only [Seller.createStocksLoop, if_neg hw2]
        exact (ih _ _ _ hperm).1 h
      · intro out rem h
        simp only [Seller.createStocksLoop, if_neg hw] at h
        simp only [Seller.createStocksLoop, if_neg hw2]
        exact (ih _ _ _ hperm).2 out rem h

theorem createPricesLoop_perm :
    ∀ (feed : List FeedRecord) (ids ids2 : List String) (acc : List Seller.PriceUpdate),
      ids.Perm ids2 →
      (Seller.createPricesLoop feed ids acc).1 = (Seller.createPricesLoop feed ids2 acc).1 := by
  intro feed
  induction feed with
  | nil => intro ids ids2 acc hperm; rfl
  | cons w ws ih =>
    intro ids ids2 acc hperm
    by_cases hw : w.code ∈ ids
    · have hw2 : w.code ∈ ids2 := hperm.mem_iff.mp hw
      simp only [Seller.createPricesLoop, if_pos hw, if_pos hw2]
      exact ih ids ids2 _ hperm
    · have hw2 : w.code ∉ ids2 := fun hcon => hw (hperm.mem_iff.mpr hcon)
      simp only [Seller.createPricesLoop, if_neg hw, if_neg hw2]
      exact ih ids ids2 acc hperm

/-! ## Lemmas about the market reconciliation loops -/

theorem marketStocksLoop_prefix (wh date : String) :
    ∀ (feed : List FeedRecord) (ids : List String) (acc out : List Market.StockUpdate)
      (rem : List String),
      Market.createStocksLoop wh date feed ids acc = some (out, rem) →
      ∃ t, out = acc ++ t := by
  intro feed
  induction feed with
  | nil =>
    intro ids acc out rem h
    simp only [Market.createStocksLoop, Option.some.injEq, Prod.mk.injEq] at h
    exact ⟨[], by rw [← h.1]; simp⟩
  | cons w ws ih =>
    intro ids acc out rem h
    by_cases hw : w.code ∈ ids
    · simp only [Market.createStocksLoop, if_pos hw] at h
      cases hq : stockQuantize w.quantity with
      | none => rw [hq] at h; exact absurd h (by simp)
      | some v =>
        rw [hq] at h
        obtain ⟨t, ht⟩ := ih _ _ _ _ h
        exact ⟨{ sku := w.code, warehouseId := wh,
                 items := [{ count := v, type := "FIT", updatedAt := date }] } :: t,
          by rw [ht]; simp⟩
    · simp only [Market.createStocksLoop, if_neg hw] at h
      exact ih _ _ _ _ h

theorem marketStocksLoop_rem (wh date : String) :
    ∀ (feed : List FeedRecord) (ids : List String) (acc out : List Market.StockUpdate)
      (rem : List String), ids.Nodup →
      Market.createStocksLoop wh date feed ids acc = some (out, rem) →
      rem.Nodup ∧ rem.Sublist ids ∧
      (∀ i, i ∈ rem ↔ i ∈ ids ∧ ∀ w ∈ feed, w.code ≠ i) := by
  intro feed
  induction feed with
  | nil =>
    intro ids acc out rem hnd h
    simp only [Market.createStocksLoop, Option.some.injEq, Prod.mk.injEq] at h
    obtain ⟨h1, h2⟩ := h
    subst h2
    exact ⟨hnd, List.Sublist.refl _, by simp⟩
  | cons w ws ih =>
    intro ids acc out rem hnd h
    by_cases hw : w.code ∈ ids
    · simp only [Market.createStocksLoop, if_pos hw] at h
      cases hq : stockQuantize w.quantity with
      | none => rw [hq] at h; exact absurd h (by simp)
      | some v =>
        rw [hq] at h
        obtain ⟨hrnd, hrsub, hriff⟩ := ih (ids.erase w.code) _ out rem (hnd.erase w.code) h
        refine ⟨hrnd, hrsub.trans (List.erase_sublist w.code ids), ?_⟩
        intro i
        rw [hriff i, hnd.mem_erase_iff]
        constructor
        · rintro ⟨⟨hne, hmem⟩, hall⟩
          refine ⟨hmem, ?_⟩
          intro v' hv'
          rcases List.mem_cons.mp hv' with rfl | hv'
          · exact Ne.symm hne
          · exact hall v' hv'
        · rintro ⟨hmem, hall⟩
          exact ⟨⟨Ne.symm (hall w (List.mem_cons_self w ws)), hmem⟩,
            fun v' hv' => hall v' (List.mem_cons_of_mem w hv')⟩
    · simp only [Market.createStocksLoop, if_neg hw] at h
      obtain ⟨hrnd, hrsub, hriff⟩ := ih ids acc out rem hnd h
      refine ⟨hrnd, hrsub, ?_⟩
      intro i
      rw [hriff i]
      constructor
      · rintro ⟨hmem, hall⟩
        refine ⟨hmem, ?_⟩
        intro v' hv'
        rcases List.mem_cons.mp hv' with rfl | hv'
        · exact fun hcon => hw (hcon ▸ hmem)
        · exact hall v' hv'
      · rintro ⟨hmem, hall⟩
        exact ⟨hmem, fun v' hv' => hall v' (List.mem_cons_of_mem w hv')⟩

theorem marketPricesLoop_snd :
    ∀ (feed : List FeedRecord) (ids : List String) (acc : List Market.PriceUpdate),
      (Market.createPricesLoop feed ids acc).2 = ids := by
  intro feed
  induction feed with
  | nil => intro ids acc; rfl
  | cons w ws ih =>
    intro ids acc
    by_cases hw : w.code ∈ ids
    · simp only [Market.createPricesLoop, if_pos hw]
      cases hq : pyInt (price_conversion w.price) with
      | none => rfl
      | some v => exact ih ids _
    · simp only [Market.createPricesLoop, if_neg hw]
      exact ih ids acc

theorem countMarketPrice_append (a b : List Market.PriceUpdate) (i : String) :
    countMarketPrice (a ++ b) i = countMarketPrice a i + countMarketPrice b i := by
  simp [countMarketPrice, List.filter_append]

theorem countMarketPrice_singleton (p : Market.PriceUpdate) (i : String) :
    countMarketPrice [p] i = if p.id = i then 1 else 0 := by
  by_cases hb : p.id = i <;> simp [countMarketPrice, hb]

theorem marketPricesLoop_count :
    ∀ (feed : List FeedRecord) (ids : List String) (acc : List Market.PriceUpdate)
      (ps : List Market.PriceUpdate) (i : String),
      (Market.createPricesLoop feed ids acc).1 = some ps →
      countMarketPrice ps i
        = countMarketPrice acc i
          + (if i ∈ ids then (feed.filter (fun w => w.code == i)).length else 0) := by
  intro feed
  induction feed with
  | nil =>
    intro ids acc ps i h
    simp only [Market.createPricesLoop, Option.some.injEq] at h
    subst h
    simp only [List.filter_nil, List.length_nil]
    by_cases hi : i ∈ ids <;> simp [hi]
  | cons w ws ih =>
    intro ids acc ps i h
    by_cases hi : i ∈ ids
    · by_cases hw : w.code ∈ ids
      · simp only [Market.createPricesLoop, if_pos hw] at h
        cases hq : pyInt (price_conversion w.price) with
        | none => rw [hq] at h; exact absurd h (by simp)
        | some v =>
          rw [hq] at h
          rw [ih ids _ ps i h, countMarketPrice_append, countMarketPrice_singleton]
          simp only [if_pos hi, List.filter_cons]
          by_cases hb : w.code = i
          · rw [if_pos hb, if_pos (by simp [hb]), List.length_cons]
            omega
          · rw [if_neg hb, if_neg (by simp [hb])]
            omega
      · simp only [Market.createPricesLoop, if_neg hw] at h
        rw [ih ids acc ps i h]
        simp only [if_pos hi, List.filter_cons]
        have hb : ¬(w.code = i) := fun hcon => hw (hcon ▸ hi)
        rw [if_neg (by simp [hb])]
    · by_cases hw : w.code ∈ ids
      · simp only [Market.createPricesLoop, if_pos hw] at h
        cases hq : pyInt (price_conversion w.price) with
        | none => rw [hq] at h; exact absurd h (by simp)
        | some v =>
          rw [hq] at h
          rw [ih ids _ ps i h, countMarketPrice_append, countMarketPrice_singleton]
          simp only [if_neg hi]
          have hb : ¬(w.code = i) := fun hcon => hi (hcon ▸ hw)
          rw [if_neg hb]
      · simp only [Market.createPricesLoop, if_neg hw] at h
        rw [ih ids acc ps i h]
        simp only [if_neg hi]

theorem marketStocksLoop_perm (wh date : String) :
    ∀ (feed : List FeedRecord) (ids ids2 : List String) (acc : List Market.StockUpdate),
      ids.Perm ids2 →
      (Market.createStocksLoop wh date feed ids acc = none →
        Market.createStocksLoop wh date feed ids2 acc = none) ∧
      (∀ out rem, Market.createStocksLoop wh date feed ids acc = some (out, rem) →
        ∃ rem2, Market.createStocksLoop wh date feed ids2 acc = some (out, rem2)
          ∧ rem.Perm rem2) := by
  intro feed
  induction feed with
  | nil =>
    intro ids ids2 acc hperm
    constructor
    · intro h
      exact absurd h (by simp [Market.createStocksLoop])
    · intro out rem h
      simp only [Market.createStocksLoop, Option.some.injEq, Prod.mk.injEq] at h
      obtain ⟨h1, h2⟩ := h
      subst h1; subst h2
      exact ⟨ids2, rfl, hperm⟩
  | cons w ws ih =>
    intro ids ids2 acc hperm
    by_cases hw : w.code ∈ ids
    · have hw2 : w.code ∈ ids2 := hperm.mem_iff.mp hw
      constructor
      · intro h
        simp only [Market.createStocksLoop, if_pos hw] at h
        simp only [Market.createStocksLoop, if_pos hw2]
        cases hq : stockQuantize w.quantity with
        | none => rfl
        | some v =>
          rw [hq] at h
          exact (ih _ _ _ (hperm.erase w.code)).1 h
      · intro out rem h
        simp only [Market.createStocksLoop, if_pos hw] at h
        simp only [Market.createStocksLoop, if_pos hw2]
        cases hq : stockQuantize w.quantity with
        | none => rw [hq] at h; exact absurd h (by simp)
        | some v =>
          rw [hq] at h
          exact (ih _ _ _ (hperm.erase w.code)).2 out rem h
    · have hw2 : w.code ∉ ids2 := fun hcon => hw (hperm.mem_iff.mpr hcon)
      constructor
      · intro h
        simp only [Market.createStocksLoop, if_neg hw] at h
        simp only [Market.createStocksLoop, if_neg hw2]
        exact (ih _ _ _ hperm).1 h
      · intro out rem h
        simp only [Market.createStocksLoop, if_neg hw] at h
        simp only [Market.createStocksLoop, if_neg hw2]
        exact (ih _ _ _ hperm).2 out rem h

theorem marketPricesLoop_perm :
    ∀ (feed : List FeedRecord) (ids ids2 : List String) (acc : List Market.PriceUpdate),
      ids.Perm ids2 →
      (Market.createPricesLoop feed ids acc).1 = (Market.createPricesLoop feed ids2 acc).1 := by
  intro feed
  induction feed with
  | nil => intro ids ids2 acc hperm; rfl
  | cons w ws ih =>
    intro ids ids2 acc hperm
    by_cases hw : w.code ∈ ids
    · have hw2 : w.code ∈ ids2 := hperm.mem_iff.mp hw
      simp only [Market.createPricesLoop, if_pos hw, if_pos hw2]
      cases hq : pyInt (price_conversion w.price) with
      | none => rfl
      | some v => exact ih ids ids2 _ hperm
    · have hw2 : w.code ∉ ids2 := fun hcon => hw (hperm.mem_iff.mpr hcon)
      simp only [Market.createPricesLoop, if_neg hw, if_neg hw2]
      exact ih ids ids2 acc hperm

/-! ## Claim theorems about the reconciliation functions -/

theorem filter_code_length (feed : List FeedRecord) (i : String) :
    (feed.filter (fun w => w.code == i)).length
      = ((feed.map (fun w => w.code)).filter (fun c => c == i)).length := by
  rw [List.filter_map]
  rw [List.length_map]
  rfl

/-- C1 counterexample: with two feed records carrying the same code `"A"` and
the known identifier collection `["A"]`, create_prices emits two price
updates for the matched identifier `"A"`, not exactly one. -/
theorem duplicate_feed_price_updates :
    countSellerPrice
      (Seller.create_prices [⟨"A", "5", "1.00"⟩, ⟨"A", "5", "1.00"⟩] ["A"]) "A" = 2 ∧
    (2 : Nat) ≠ 1 :=
  ⟨rfl, by decide⟩

/-- C1 (amended): with a duplicate-free known-identifier collection, every
known identifier receives exactly one stock update; an identifier with no
feed match receives the zero-quantity stock update and no price update; and
a matched identifier receives one price update per feed record carrying its
code — exactly one when the feed's codes are duplicate-free, on both
marketplaces' create_prices. -/
theorem reconciliation_invariant (watch_remnants : List FeedRecord)
    (offer_ids : List String) (hnd : offer_ids.Nodup) :
    (∀ out rem, Seller.create_stocks watch_remnants offer_ids = some (out, rem) →
      (∀ i ∈ offer_ids, countStock out i = 1) ∧
      (∀ i ∈ offer_ids, (∀ w ∈ watch_remnants, w.code ≠ i) →
        Seller.StockUpdate.mk i 0 ∈ out)) ∧
    (∀ i ∈ offer_ids,
      countSellerPrice (Seller.create_prices watch_remnants offer_ids) i
        = (watch_remnants.filter (fun w => w.code == i)).length) ∧
    (∀ i, i ∉ offer_ids →
      countSellerPrice (Seller.create_prices watch_remnants offer_ids) i = 0) ∧
    (∀ i ∈ offer_ids, (∀ w ∈ watch_remnants, w.code ≠ i) →
      countSellerPrice (Seller.create_prices watch_remnants offer_ids) i = 0) ∧
    ((watch_remnants.map (fun w => w.code)).Nodup →
      ∀ i ∈ offer_ids, (∃ w ∈ watch_remnants, w.code = i) →
        countSellerPrice (Seller.create_prices watch_remnants offer_ids) i = 1) ∧
    (∀ ps, Market.create_prices watch_remnants offer_ids = some ps →
      ∀ i ∈ offer_ids, countMarketPrice ps i
        = (watch_remnants.filter (fun w => w.code == i)).length) := by
  have hpc : ∀ i, countSellerPrice (Seller.create_prices watch_remnants offer_ids) i
      = if i ∈ offer_ids then (watch_remnants.filter (fun w => w.code == i)).length
        else 0 := by
    intro i
    have h := createPricesLoop_count watch_remnants offer_ids [] i
    simpa [Seller.create_prices, countSellerPrice] using h
  refine ⟨?_, ?_, ?_, ?_, ?_, ?_⟩
  · intro out rem h
    obtain ⟨hrnd, hrsub, hriff, hcount, hzero⟩ :=
      create_stocks_spec watch_remnants offer_ids hnd out rem h
    exact ⟨hcount, fun i hi hall => hzero i ((hriff i).mpr ⟨hi, hall⟩)⟩
  · intro i hi
    rw [hpc i, if_pos hi]
  · intro i hi
    rw [hpc i, if_neg hi]
  · intro i hi hall
    rw [hpc i, if_pos hi, List.filter_eq_nil_iff.mpr (fun w hw => by simp [hall w hw])]
    rfl
  · intro hfnd i hi hex
    rw [hpc i, if_pos hi, filter_code_length,
      nodup_filter_beq_length _ i hfnd]
    obtain ⟨w, hw, hwc⟩ := hex
    rw [if_pos (List.mem_map.mpr ⟨w, hw, hwc⟩)]
  · intro ps hps i hi
    have h := marketPricesLoop_count watch_remnants offer_ids [] ps i hps
    rw [h, if_pos hi]
    simp [countMarketPrice]

theorem reconciliation_invariant_witness :
    countStock [⟨"A", 100⟩, ⟨"B", 0⟩] "A" = 1 :=
  ((reconciliation_invariant [⟨"A", ">10", "1.00"⟩] ["A", "B"] (by decide)).1
    [⟨"A", 100⟩, ⟨"B", 0⟩] ["B"] rfl).1 "A" (by decide)

/-- C2: when a feed record's code is a known identifier, the stock update
created for it carries 100 when the quantity string is `">10"`, 0 when it is
`"1"`, and otherwise the direct integer parse of the quantity string — with
an uncaught error (for the whole call) on a non-numeric quantity — on both
marketplaces; and the concrete reconciliation example of the spec holds. -/
theorem stock_quantization (w : FeedRecord) (ws : List FeedRecord) (ids : List String)
    (hmem : w.code ∈ ids) (wh date : String) :
    (w.quantity = ">10" → ∀ out rem,
      Seller.create_stocks (w :: ws) ids = some (out, rem) →
      out.head? = some ⟨w.code, 100⟩) ∧
    (w.quantity = "1" → ∀ out rem,
      Seller.create_stocks (w :: ws) ids = some (out, rem) →
      out.head? = some ⟨w.code, 0⟩) ∧
    (∀ n : Int, w.quantity ≠ ">10" → w.quantity ≠ "1" → pyInt w.quantity = some n →
      ∀ out rem, Seller.create_stocks (w :: ws) ids = some (out, rem) →
        out.head? = some ⟨w.code, n⟩) ∧
    (w.quantity ≠ ">10" → w.quantity ≠ "1" → pyInt w.quantity = none →
      Seller.create_stocks (w :: ws) ids = none) ∧
    (w.quantity = ">10" → ∀ out rem,
      Market.create_stocks (w :: ws) ids wh date = some (out, rem) →
      out.head? = some ⟨w.code, wh, [⟨100, "FIT", date⟩]⟩) ∧
    (w.quantity = "1" → ∀ out rem,
      Market.create_stocks (w :: ws) ids wh date = some (out, rem) →
      out.head? = some ⟨w.code, wh, [⟨0, "FIT", date⟩]⟩) ∧
    (∀ n : Int, w.quantity ≠ ">10" → w.quantity ≠ "1" → pyInt w.quantity = some n →
      ∀ out rem, Market.create_stocks (w :: ws) ids wh date = some (out, rem) →
        out.head? = some ⟨w.code, wh, [⟨n, "FIT", date⟩]⟩) ∧
    (w.quantity ≠ ">10" → w.quantity ≠ "1" → pyInt w.quantity = none →
      Market.create_stocks (w :: ws) ids wh date = none) ∧
    (Seller.create_stocks [⟨"A", ">10", "100.00"⟩, ⟨"B", "1", "50.00"⟩] ["A", "B", "C"]
      = some ([⟨"A", 100⟩, ⟨"B", 0⟩, ⟨"C", 0⟩], ["C"])) ∧
    (Seller.create_prices [⟨"A", ">10", "100.00"⟩, ⟨"B", "1", "50.00"⟩] ["A", "B", "C"]
      = [⟨"UNKNOWN", "RUB", "A", "0", "100"⟩, ⟨"UNKNOWN", "RUB", "B", "0", "50"⟩]) ∧
    (Market.create_prices [⟨"A", ">10", "100.00"⟩, ⟨"B", "1", "50.00"⟩] ["A", "B", "C"]
      = some [⟨"A", ⟨100, "RUR"⟩⟩, ⟨"B", ⟨50, "RUR"⟩⟩]) := by
  have hsell : ∀ v : Int, stockQuantize w.quantity = some v →
      ∀ out rem, Seller.create_stocks (w :: ws) ids = some (out, rem) →
        out.head? = some ⟨w.code, v⟩ := by
    intro v hq out rem h
    simp only [Seller.create_stocks, Option.map_eq_some'] at h
    obtain ⟨⟨a, rem2⟩, hloop, heq⟩ := h
    simp only [Prod.mk.injEq] at heq
    obtain ⟨hout, hrem⟩ := heq
    simp only [Seller.createStocksLoop, if_pos hmem, hq] at hloop
    obtain ⟨t, ht⟩ := createStocksLoop_prefix ws _ _ a rem2 hloop
    rw [← hout, ht]
    simp
  have hsellnone : stockQuantize w.quantity = none →
      Seller.create_stocks (w :: ws) ids = none := by
    intro hq
    simp [Seller.create_stocks, Seller.createStocksLoop, if_pos hmem, hq]
  have hmark : ∀ v : Int, stockQuantize w.quantity = some v →
      ∀ out rem, Market.create_stocks (w :: ws) ids wh date = some (out, rem) →
        out.head? = some ⟨w.code, wh, [⟨v, "FIT", date⟩]⟩ := by
    intro v hq out rem h
    simp only [Market.create_stocks, Option.map_eq_some'] at h
    obtain ⟨⟨a, rem2⟩, hloop, heq⟩ := h
    simp only [Prod.mk.injEq] at heq
    obtain ⟨hout, hrem⟩ := heq
    simp only [Market.createStocksLoop, if_pos hmem, hq] at hloop
    obtain ⟨t, ht⟩ := marketStocksLoop_prefix wh date ws _ _ a rem2 hloop
    rw [← hout, ht]
    simp
  have hmarknone : stockQuantize w.quantity = none →
      Market.create_stocks (w :: ws) ids wh date = none := by
    intro hq
    simp [Market.create_stocks, Market.createStocksLoop, if_pos hmem, hq]
  refine ⟨?_, ?_, ?_, ?_, ?_, ?_, ?_, ?_, rfl, rfl, rfl⟩
  · intro hq
    exact hsell 100 (by simp [stockQuantize, hq])
  · intro hq
    exact hsell 0 (by simp [stockQuantize, hq])
  · intro n h1 h2 hq
    exact hsell n (by simp [stockQuantize, h1, h2, hq])
  · intro h1 h2 hq
    exact hsellnone (by simp [stockQuantize, h1, h2, hq])
  · intro hq
    exact hmark 100 (by simp [stockQuantize, hq])
  · intro hq
    exact hmark 0 (by simp [stockQuantize, hq])
  · intro n h1 h2 hq
    exact hmark n (by simp [stockQuantize, h1, h2, hq])
  · intro h1 h2 hq
    exact hmarknone (by simp [stockQuantize, h1, h2, hq])

theorem stock_quantization_witness :
    ([(⟨"A", 100⟩ : Seller.StockUpdate)]).head? = some ⟨"A", 100⟩ :=
  (stock_quantization ⟨"A", ">10", "9.00"⟩ [] ["A"] (by decide) "W" "D").1 rfl
    [⟨"A", 100⟩] [] rfl

/-- C3: reconciliation is deterministic and its outputs are stable under
permutation of the known-identifier collection: the price updates are
identical, the stock computation succeeds or fails together, the matched
stock prefix is identical, and the full stock update lists (and the leftover
unmatched identifiers) are permutations — the order can differ only in the
unmatched tail, and only when the input identifier ordering differs. -/
theorem reconciliation_idempotent (watch_remnants : List FeedRecord)
    (ids ids2 : List String) (wh date : String) (hperm : ids.Perm ids2) :
    Seller.create_prices watch_remnants ids = Seller.create_prices watch_remnants ids2 ∧
    Market.create_prices watch_remnants ids = Market.create_prices watch_remnants ids2 ∧
    (Seller.create_stocks watch_remnants ids = none ↔
      Seller.create_stocks watch_remnants ids2 = none) ∧
    (∀ out rem, Seller.createStocksLoop watch_remnants ids [] = some (out, rem) →
      ∃ rem2, Seller.createStocksLoop watch_remnants ids2 [] = some (out, rem2)
        ∧ rem.Perm rem2) ∧
    (∀ out rem out2 rem2,
      Seller.create_stocks watch_remnants ids = some (out, rem) →
      Seller.create_stocks watch_remnants ids2 = some (out2, rem2) →
      out.Perm out2 ∧ rem.Perm rem2) ∧
    (Market.create_stocks watch_remnants ids wh date = none ↔
      Market.create_stocks watch_remnants ids2 wh date = none) ∧
    (∀ out rem,
      Market.createStocksLoop wh date watch_remnants ids [] = some (out, rem) →
      ∃ rem2, Market.createStocksLoop wh date watch_remnants ids2 [] = some (out, rem2)
        ∧ rem.Perm rem2) ∧
    (∀ out rem out2 rem2,
      Market.create_stocks watch_remnants ids wh date = some (out, rem) →
      Market.create_stocks watch_remnants ids2 wh date = some (out2, rem2) →
      out.Perm out2 ∧ rem.Perm rem2) := by
  refine ⟨createPricesLoop_perm watch_remnants ids ids2 [] hperm,
    marketPricesLoop_perm watch_remnants ids ids2 [] hperm, ?_, ?_, ?_, ?_, ?_, ?_⟩
  · simp only [Seller.create_stocks, Option.map_eq_none']
    exact ⟨fun h => (createStocksLoop_perm watch_remnants ids ids2 [] hperm).1 h,
      fun h => (createStocksLoop_perm watch_remnants ids2 ids [] hperm.symm).1 h⟩
  · exact fun out rem h => (createStocksLoop_perm watch_remnants ids ids2 [] hperm).2 out rem h
  · intro out rem out2 rem2 h h2
    simp only [Seller.create_stocks, Option.map_eq_some'] at h h2
    obtain ⟨⟨a, r⟩, hloop, heq⟩ := h
    obtain ⟨⟨a2, r2⟩, hloop2, heq2⟩ := h2
    simp only [Prod.mk.injEq] at heq heq2
    obtain ⟨hout, hrem⟩ := heq
    obtain ⟨hout2, hrem2⟩ := heq2
    obtain ⟨r', hloop', hpr⟩ :=
      (createStocksLoop_perm watch_remnants ids ids2 [] hperm).2 a r hloop
    rw [hloop'] at hloop2
    simp only [Option.some.injEq, Prod.mk.injEq] at hloop2
    obtain ⟨ha, hr⟩ := hloop2
    subst hrem; subst hrem2
    constructor
    · rw [← hout, ← hout2, ← ha]
      exact List.Perm.append_left a ((hr ▸ hpr).map _)
    · exact hr ▸ hpr
  · simp only [Market.create_stocks, Option.map_eq_none']
    exact ⟨fun h => (marketStocksLoop_perm wh date watch_remnants ids ids2 [] hperm).1 h,
      fun h => (marketStocksLoop_perm wh date watch_remnants ids2 ids [] hperm.symm).1 h⟩
  · exact fun out rem h =>
      (marketStocksLoop_perm wh date watch_remnants ids ids2 [] hperm).2 out rem h
  · intro out rem out2 rem2 h h2
    simp only [Market.create_stocks, Option.map_eq_some'] at h h2
    obtain ⟨⟨a, r⟩, hloop, heq⟩ := h
    obtain ⟨⟨a2, r2⟩, hloop2, heq2⟩ := h2
    simp only [Prod.mk.injEq] at heq heq2
    obtain ⟨hout, hrem⟩ := heq
    obtain ⟨hout2, hrem2⟩ := heq2
    obtain ⟨r', hloop', hpr⟩ :=
      (marketStocksLoop_perm wh date watch_remnants ids ids2 [] hperm).2 a r hloop
    rw [hloop'] at hloop2
    simp only [Option.some.injEq, Prod.mk.injEq] at hloop2
    obtain ⟨ha, hr⟩ := hloop2
    subst hrem; subst hrem2
    constructor
    · rw [← hout, ← hout2, ← ha]
      exact List.Perm.append_left a ((hr ▸ hpr).map _)
    · exact hr ▸ hpr

theorem reconciliation_idempotent_witness :
    Seller.create_prices [⟨"A", "5", "1.00"⟩] ["A", "B"]
      = Seller.create_prices [⟨"A", "5", "1.00"⟩] ["B", "A"] :=
  (reconciliation_idempotent [⟨"A", "5", "1.00"⟩] ["A", "B"] ["B", "A"] "W" "D"
    (by decide)).1

/-- C10: on both marketplaces, create_prices leaves the offer_ids collection
exactly as it was given, while a successful create_stocks leaves in
offer_ids precisely the identifiers matched by no feed record, in their
original relative order (a sublist of the input). -/
theorem offer_ids_frame (watch_remnants : List FeedRecord) (offer_ids : List String)
    (wh date : String) (hnd : offer_ids.Nodup) :
    (Seller.createPricesLoop watch_remnants offer_ids []).2 = offer_ids ∧
    (Market.createPricesLoop watch_remnants offer_ids []).2 = offer_ids ∧
    (∀ out rem, Seller.create_stocks watch_remnants offer_ids = some (out, rem) →
      rem.Sublist offer_ids ∧
      (∀ i, i ∈ rem ↔ i ∈ offer_ids ∧ ∀ w ∈ watch_remnants, w.code ≠ i)) ∧
    (∀ out rem,
      Market.create_stocks watch_remnants offer_ids wh date = some (out, rem) →
      rem.Sublist offer_ids ∧
      (∀ i, i ∈ rem ↔ i ∈ offer_ids ∧ ∀ w ∈ watch_remnants, w.code ≠ i)) := by
  refine ⟨createPricesLoop_snd watch_remnants offer_ids [],
    marketPricesLoop_snd watch_remnants offer_ids [], ?_, ?_⟩
  · intro out rem h
    obtain ⟨hrnd, hrsub, hriff, _, _⟩ :=
      create_stocks_spec watch_remnants offer_ids hnd out rem h
    exact ⟨hrsub, hriff⟩
  · intro out rem h
    simp only [Market.create_stocks, Option.map_eq_some'] at h
    obtain ⟨⟨a, rem2⟩, hloop, heq⟩ := h
    simp only [Prod.mk.injEq] at heq
    obtain ⟨hout, hrem⟩ := heq
    subst hrem
    obtain ⟨hrnd, hrsub, hriff⟩ :=
      marketStocksLoop_rem wh date watch_remnants offer_ids [] a rem2 hnd hloop
    exact ⟨hrsub, hriff⟩

theorem offer_ids_frame_witness :
    (Seller.createPricesLoop [⟨"A", "5", "1.00"⟩] ["A", "B"] []).2 = ["A", "B"] :=
  (offer_ids_frame [⟨"A", "5", "1.00"⟩] ["A", "B"] "W" "D" (by decide)).1

end SellerApis
